import Mathlib

/-!
Verification of the hmacsigner package (Go): signed, salted, timestamped
blobs with URL-safe unpadded base64 framing.

The development shallowly embeds `hmacsigner.go`:

* bytes are `Nat` values (< 256 where it matters), byte strings are `List Nat`;
* Go's `base64.RawURLEncoding` encoder/decoder is translated from
  `encoding/base64` (unpadded, URL-safe alphabet, non-strict about trailing
  padding bits, `\n`/`\r` skipped during decoding);
* `int64`/`uint64` round-trips are explicit `% 2^64` arithmetic on `Int`/`Nat`;
* HMAC-SHA256 (`crypto/hmac` + `crypto/sha256`, library code outside this
  repository) is an abstract keyed digest function `Mac`, passed explicitly;
  the repository relies only on its determinism and 32-byte output;
* the injectable clock (`nowF`) and salt source (`saltF`) become optional
  fields whose absence selects the ambient system value, which is passed in
  explicitly;
* `Gen`'s panic on a short secret and the (provably dead) out-of-bounds
  writes inside `Parse` are modelled by an `Option` layer: `none` is a panic.
-/

set_option maxRecDepth 100000

namespace Hmacsigner

/-- URL-safe base64 alphabet of `encoding/base64`: byte value of the
character for each 6-bit index (A-Z, a-z, 0-9, -, _). -/
def b64Char (i : Nat) : Nat :=
  if i < 26 then 65 + i
  else if i < 52 then 71 + i
  else if i < 62 then i - 4
  else if i = 62 then 45
  else 95

/-- Decoding map of `encoding/base64` for the URL-safe alphabet: byte of a
character to its 6-bit value, `none` for bytes outside the alphabet. -/
def b64Byte (c : Nat) : Option Nat :=
  if 65 ≤ c ∧ c ≤ 90 then some (c - 65)
  else if 97 ≤ c ∧ c ≤ 122 then some (c - 71)
  else if 48 ≤ c ∧ c ≤ 57 then some (c + 4)
  else if c = 45 then some 62
  else if c = 95 then some 63
  else none

/-- Go `base64.RawURLEncoding.Encode`: groups of three source bytes become
four characters; a final group of one or two bytes becomes two or three
characters (no padding). -/
def encodeB64 : List Nat → List Nat
  | b0 :: b1 :: b2 :: rest =>
      let val := b0 * 65536 + b1 * 256 + b2
      b64Char (val / 262144 % 64) :: b64Char (val / 4096 % 64) ::
        b64Char (val / 64 % 64) :: b64Char (val % 64) :: encodeB64 rest
  | [b0, b1] =>
      let val := b0 * 65536 + b1 * 256
      [b64Char (val / 262144 % 64), b64Char (val / 4096 % 64), b64Char (val / 64 % 64)]
  | [b0] =>
      let val := b0 * 65536
      [b64Char (val / 262144 % 64), b64Char (val / 4096 % 64)]
  | [] => []

/-- Quantum loop of Go `base64.RawURLEncoding.Decode` (newlines already
removed): four characters yield three bytes, a final three characters two
bytes, a final two characters one byte; a single trailing character is a
`CorruptInputError`, as is any character outside the alphabet.  Trailing
padding bits are dropped without inspection (the non-strict default). -/
def decodeQuanta : List Nat → Except Unit (List Nat)
  | [] => .ok []
  | [_] => .error ()
  | [c0, c1] =>
      match b64Byte c0, b64Byte c1 with
      | some d0, some d1 =>
          let val := d0 * 262144 + d1 * 4096
          .ok [val / 65536 % 256]
      | _, _ => .error ()
  | [c0, c1, c2] =>
      match b64Byte c0, b64Byte c1, b64Byte c2 with
      | some d0, some d1, some d2 =>
          let val := d0 * 262144 + d1 * 4096 + d2 * 64
          .ok [val / 65536 % 256, val / 256 % 256]
      | _, _, _ => .error ()
  | c0 :: c1 :: c2 :: c3 :: rest =>
      match b64Byte c0, b64Byte c1, b64Byte c2, b64Byte c3 with
      | some d0, some d1, some d2, some d3 =>
          let val := d0 * 262144 + d1 * 4096 + d2 * 64 + d3
          match decodeQuanta rest with
          | .ok ds => .ok ([val / 65536 % 256, val / 256 % 256, val % 256] ++ ds)
          | .error e => .error e
      | _, _, _, _ => .error ()

/-- Go `base64.RawURLEncoding.Decode`: carriage returns and newlines are
skipped wherever they occur, then the stream is decoded quantum by
quantum. -/
def decodeB64 (l : List Nat) : Except Unit (List Nat) :=
  decodeQuanta (l.filter fun c => c != 10 && c != 13)

/-- Go `binary.LittleEndian.PutUint64`: eight bytes, least significant
first. -/
def le64 (n : Nat) : List Nat :=
  [n % 256, n / 256 % 256, n / 65536 % 256, n / 16777216 % 256,
   n / 4294967296 % 256, n / 1099511627776 % 256,
   n / 281474976710656 % 256, n / 72057594037927936 % 256]

/-- Go `binary.LittleEndian.Uint64`: read a little-endian value back. -/
def leVal : List Nat → Nat
  | [] => 0
  | b :: r => b + 256 * leVal r

/-- Go conversion `uint64(i)` of an `int64` value: two's-complement wrap. -/
def toUint64 (i : Int) : Nat := (i % 18446744073709551616).toNat

/-- Go conversion `int64(n)` of a `uint64` value: two's-complement read. -/
def toInt64 (n : Nat) : Int :=
  if n < 9223372036854775808 then (n : Int) else (n : Int) - 18446744073709551616

/-- Package constant `saltLen`. -/
def saltLen : Nat := 8

/-- Package constant `encTsLen`: encoded length of the 8 timestamp bytes. -/
def encTsLen : Nat := 11

/-- Package constant `encSaltLen`: encoded length of the 8 salt bytes. -/
def encSaltLen : Nat := 11

/-- Package constant `encSigLen`: encoded length of the 32 signature bytes. -/
def encSigLen : Nat := 43

/-- Package constant `encHeaderLen`. -/
def encHeaderLen : Nat := encTsLen + encSaltLen + encSigLen

/-- Package constant `minSecretLen`. -/
def minSecretLen : Nat := 32

/-- The four error values of the package. -/
inductive Err where
  | tooShort
  | invalidEncoding
  | timestampExpired
  | signatureMismatch
deriving DecidableEq, Repr

/-- Decidable equality of decode results, used by concrete witnesses. -/
instance {e a : Type} [DecidableEq e] [DecidableEq a] : DecidableEq (Except e a)
  | .ok x, .ok y =>
      if h : x = y then isTrue (by rw [h]) else isFalse (by simp [h])
  | .ok _, .error _ => isFalse (by simp)
  | .error _, .ok _ => isFalse (by simp)
  | .error x, .error y =>
      if h : x = y then isTrue (by rw [h]) else isFalse (by simp [h])

/-- Abstract keyed digest: HMAC-SHA256 from `crypto/hmac`/`crypto/sha256`
(library code outside this repository), as a function from key and message
to digest bytes. -/
def Mac : Type := List Nat → List Nat → List Nat

/-- The `Signer` struct: secret, TTL (nanoseconds), and the two injectable
sources.  `nowF`/`saltF` are the values the injected functions would
return; `none` selects the ambient system source. -/
structure Signer where
  Secret : List Nat
  TTL : Int
  nowF : Option Int := none
  saltF : Option (List Nat) := none

/-- Method `Signer.now`: the injected clock if present, otherwise the system
clock reading `sysNow`. -/
def Signer.now (s : Signer) (sysNow : Int) : Int := s.nowF.getD sysNow

/-- Method `Signer.salt`: the injected salt bytes if present, otherwise the
bytes `sysRand` read from the secure random source. -/
def Signer.salt (s : Signer) (sysRand : List Nat) : List Nat := s.saltF.getD sysRand

/-- Method `Signer.sign`: digest keyed by the secret over the 8 little-endian
bytes of `uint64(issue.UnixNano())`, then the salt bytes, then the raw
payload bytes. -/
def sign (mac : Mac) (s : Signer) (payload salt : List Nat) (issue : Int) : List Nat :=
  mac s.Secret (le64 (toUint64 issue) ++ salt ++ payload)

/-- Write `data` into `buf` starting at offset `off` (Go slice writes into
`blob` through the re-sliced `next`). -/
def overwriteAt (buf : List Nat) (off : Nat) (data : List Nat) : List Nat :=
  buf.take off ++ data ++ buf.drop (off + data.length)

/-- Method `Signer.Gen`: panics (`none`) on a short secret, otherwise lays
ts, salt, signature and payload encodings into a fresh buffer of
`EncodedLen(len(payload)) + encHeaderLen` bytes at offsets 0, `encTsLen`,
`encTsLen + encSaltLen` and `encHeaderLen`. -/
def gen (mac : Mac) (s : Signer) (sysNow : Int) (sysRand : List Nat)
    (payload : List Nat) : Option (List Nat) :=
  if s.Secret.length < minSecretLen then none
  else
    let issue := s.now sysNow
    let tsB := le64 (toUint64 issue)
    let saltB := s.salt sysRand
    let sig := sign mac s payload saltB issue
    let blobLen := (8 * payload.length + 5) / 6 + encHeaderLen
    some (overwriteAt (overwriteAt (overwriteAt (overwriteAt
      (List.replicate blobLen 0) 0 (encodeB64 tsB))
      encTsLen (encodeB64 saltB))
      (encTsLen + encSaltLen) (encodeB64 sig))
      encHeaderLen (encodeB64 payload))

/-- Timestamp scratch buffer after `Decode(scratch[:], b[:encTsLen])`: the
decoded bytes over a zeroed 8-byte array (a decode of fewer than 8 bytes
leaves the zero tail in place). -/
def tsScratch (d1 : List Nat) : List Nat := d1 ++ (List.replicate 8 0).drop d1.length

/-- The `int64` timestamp `Parse` reads from the scratch buffer. -/
def tsVal (d1 : List Nat) : Int := toInt64 (leVal (tsScratch d1))

/-- Salt scratch buffer after the second `Decode` reuses `scratch`: decoded
salt bytes over whatever the timestamp decode left behind. -/
def saltScratch (d1 d2 : List Nat) : List Nat := d2 ++ (tsScratch d1).drop d2.length

/-- Signature buffer after `Decode(sig[:], b[:encSigLen])` over a zeroed
32-byte array. -/
def sigFill (d3 : List Nat) : List Nat := d3 ++ (List.replicate 32 0).drop d3.length

/-- Method `Signer.Parse`: length gate, then base64-decode of the timestamp,
expiry check against the system clock `sysNow`, decode of salt, signature
and payload, and a signature comparison.  `none` models a Go panic: a
decode writing past its fixed-size destination array.  Every other outcome
is `some`. -/
def parse (mac : Mac) (s : Signer) (sysNow : Int) (b : List Nat) :
    Option (Except Err (List Nat)) :=
  if b.length < encHeaderLen then some (.error .tooShort)
  else
    match decodeB64 (b.take encTsLen) with
    | .error _ => some (.error .invalidEncoding)
    | .ok d1 =>
      if d1.length ≤ 8 then
        let ts := tsVal d1
        if ts + s.TTL < sysNow then some (.error .timestampExpired)
        else
          let b1 := b.drop encTsLen
          match decodeB64 (b1.take encSaltLen) with
          | .error _ => some (.error .invalidEncoding)
          | .ok d2 =>
            if d2.length ≤ 8 then
              let b2 := b1.drop encSaltLen
              match decodeB64 (b2.take encSigLen) with
              | .error _ => some (.error .invalidEncoding)
              | .ok d3 =>
                if d3.length ≤ 32 then
                  let b3 := b2.drop encSigLen
                  if 0 < b3.length then
                    match decodeB64 b3 with
                    | .error _ => some (.error .invalidEncoding)
                    | .ok d4 =>
                      if d4.length ≤ 6 * b3.length / 8 then
                        if sign mac s d4 (saltScratch d1 d2) ts = sigFill d3 then
                          some (.ok d4)
                        else some (.error .signatureMismatch)
                      else none
                  else
                    if sign mac s [] (saltScratch d1 d2) ts = sigFill d3 then
                      some (.ok [])
                    else some (.error .signatureMismatch)
                else none
            else none
      else none

/-! ## Base64 lemmas -/

/-- Decoding inverts the alphabet map on 6-bit values. -/
theorem b64Byte_b64Char : ∀ i < 64, b64Byte (b64Char i) = some i := by decide

/-- Alphabet characters are neither `\n` nor `\r`. -/
theorem b64Char_not_nl : ∀ i < 64, b64Char i ≠ 10 ∧ b64Char i ≠ 13 := by decide

/-- Decoding inverts the alphabet map, `% 64` form. -/
theorem b64round (n : Nat) : b64Byte (b64Char (n % 64)) = some (n % 64) :=
  b64Byte_b64Char _ (Nat.mod_lt _ (by norm_num))

/-- Induction principle following the three-byte grouping of `encodeB64`. -/
theorem list3Induction {P : List Nat → Prop} (h0 : P []) (h1 : ∀ a, P [a])
    (h2 : ∀ a b, P [a, b]) (h3 : ∀ a b c l, P l → P (a :: b :: c :: l)) :
    ∀ l, P l
  | [] => h0
  | [a] => h1 a
  | [a, b] => h2 a b
  | a :: b :: c :: r => h3 a b c r (list3Induction h0 h1 h2 h3 r)

/-- Induction principle following the four-character grouping of
`decodeQuanta`. -/
theorem list4Induction {P : List Nat → Prop} (h0 : P []) (h1 : ∀ a, P [a])
    (h2 : ∀ a b, P [a, b]) (h3 : ∀ a b c, P [a, b, c])
    (h4 : ∀ a b c d l, P l → P (a :: b :: c :: d :: l)) :
    ∀ l, P l
  | [] => h0
  | [a] => h1 a
  | [a, b] => h2 a b
  | [a, b, c] => h3 a b c
  | a :: b :: c :: d :: r => h4 a b c d r (list4Induction h0 h1 h2 h3 h4 r)

/-- The encoder produces `EncodedLen` characters: `(8 n + 5) / 6`. -/
theorem length_encodeB64 (l : List Nat) : (encodeB64 l).length = (8 * l.length + 5) / 6 := by
  induction l using list3Induction with
  | h0 => simp [encodeB64]
  | h1 a => simp [encodeB64]
  | h2 a b => simp [encodeB64]
  | h3 a b c r ih => simp [encodeB64, ih]; omega

/-- Every character the encoder emits is an alphabet character. -/
theorem mem_encodeB64 (l : List Nat) : ∀ c ∈ encodeB64 l, ∃ j, j < 64 ∧ c = b64Char j := by
  induction l using list3Induction with
  | h0 => simp [encodeB64]
  | h1 a =>
      intro c hc
      simp only [encodeB64, List.mem_cons, List.mem_singleton] at hc
      rcases hc with h | h | h
      all_goals first
        | exact ⟨_, Nat.mod_lt _ (by norm_num), h⟩
        | simp at h
  | h2 a b =>
      intro c hc
      simp only [encodeB64, List.mem_cons, List.mem_singleton] at hc
      rcases hc with h | h | h | h
      all_goals first
        | exact ⟨_, Nat.mod_lt _ (by norm_num), h⟩
        | simp at h
  | h3 a b c r ih =>
      intro x hx
      simp only [encodeB64, List.mem_cons] at hx
      rcases hx with h | h | h | h | h
      · exact ⟨_, Nat.mod_lt _ (by norm_num), h⟩
      · exact ⟨_, Nat.mod_lt _ (by norm_num), h⟩
      · exact ⟨_, Nat.mod_lt _ (by norm_num), h⟩
      · exact ⟨_, Nat.mod_lt _ (by norm_num), h⟩
      · exact ih x h

/-- Encoder output passes the newline filter unchanged. -/
theorem filter_encodeB64 (l : List Nat) :
    ((encodeB64 l).filter fun c => c != 10 && c != 13) = encodeB64 l := by
  refine List.filter_eq_self.mpr ?_
  intro c hc
  obtain ⟨j, hj, rfl⟩ := mem_encodeB64 l c hc
  have := b64Char_not_nl j hj
  simp only [bne_iff_ne, Bool.and_eq_true, decide_eq_true_eq]
  exact ⟨this.1, this.2⟩

/-- Unfolding of a full decode quantum whose characters are all valid. -/
theorem decodeQuanta_cons4 (c0 c1 c2 c3 : Nat) (rest : List Nat) (d0 d1 d2 d3 : Nat)
    (h0 : b64Byte c0 = some d0) (h1 : b64Byte c1 = some d1)
    (h2 : b64Byte c2 = some d2) (h3 : b64Byte c3 = some d3) :
    decodeQuanta (c0 :: c1 :: c2 :: c3 :: rest) =
      match decodeQuanta rest with
      | .ok ds =>
          .ok ([(d0 * 262144 + d1 * 4096 + d2 * 64 + d3) / 65536 % 256,
                (d0 * 262144 + d1 * 4096 + d2 * 64 + d3) / 256 % 256,
                (d0 * 262144 + d1 * 4096 + d2 * 64 + d3) % 256] ++ ds)
      | .error e => .error e := by
  simp [decodeQuanta, h0, h1, h2, h3]

/-- Decoding inverts encoding on byte lists (quantum level). -/
theorem decodeQuanta_encodeB64 (l : List Nat) (h : ∀ x ∈ l, x < 256) :
    decodeQuanta (encodeB64 l) = .ok l := by
  induction l using list3Induction with
  | h0 => simp [encodeB64, decodeQuanta]
  | h1 a =>
      have ha : a < 256 := h a (by simp)
      simp only [encodeB64]
      rw [show decodeQuanta [b64Char (a * 65536 / 262144 % 64), b64Char (a * 65536 / 4096 % 64)] =
        (match b64Byte (b64Char (a * 65536 / 262144 % 64)), b64Byte (b64Char (a * 65536 / 4096 % 64)) with
         | some d0, some d1 => .ok [(d0 * 262144 + d1 * 4096) / 65536 % 256]
         | _, _ => .error ()) from rfl]
      rw [b64round, b64round]
      simp only
      congr 1
      have : a * 65536 / 262144 % 64 * 262144 + a * 65536 / 4096 % 64 * 4096 = a * 65536 := by
        omega
      rw [this]
      congr 1
      omega
  | h2 a b =>
      have ha : a < 256 := h a (by simp)
      have hb : b < 256 := h b (by simp)
      simp only [encodeB64]
      rw [show ∀ x y z : Nat, decodeQuanta [x, y, z] =
        (match b64Byte x, b64Byte y, b64Byte z with
         | some d0, some d1, some d2 =>
             .ok [(d0 * 262144 + d1 * 4096 + d2 * 64) / 65536 % 256,
                  (d0 * 262144 + d1 * 4096 + d2 * 64) / 256 % 256]
         | _, _, _ => .error ()) from fun _ _ _ => rfl]
      rw [b64round, b64round, b64round]
      simp only
      congr 1
      have : (a * 65536 + b * 256) / 262144 % 64 * 262144 +
          (a * 65536 + b * 256) / 4096 % 64 * 4096 +
          (a * 65536 + b * 256) / 64 % 64 * 64 = a * 65536 + b * 256 := by
        omega
      rw [this]
      congr 1
      · omega
      · congr 1
        omega
  | h3 a b c r ih =>
      have ha : a < 256 := h a (by simp)
      have hb : b < 256 := h b (by simp)
      have hc : c < 256 := h c (by simp)
      have hr : ∀ x ∈ r, x < 256 := fun x hx => h x (by simp [hx])
      simp only [encodeB64]
      rw [decodeQuanta_cons4 _ _ _ _ _ _ _ _ _ (b64round _) (b64round _) (b64round _) (b64round _)]
      rw [ih hr]
      simp only
      congr 1
      have hv : (a * 65536 + b * 256 + c) / 262144 % 64 * 262144 +
          (a * 65536 + b * 256 + c) / 4096 % 64 * 4096 +
          (a * 65536 + b * 256 + c) / 64 % 64 * 64 +
          (a * 65536 + b * 256 + c) % 64 = a * 65536 + b * 256 + c := by
        omega
      rw [hv]
      simp only [List.cons_append, List.nil_append]
      congr 1
      · omega
      · congr 1
        · omega
        · congr 1
          omega

/-- Decoding inverts encoding on byte lists. -/
theorem decodeB64_encodeB64 (l : List Nat) (h : ∀ x ∈ l, x < 256) :
    decodeB64 (encodeB64 l) = .ok l := by
  rw [decodeB64, filter_encodeB64, decodeQuanta_encodeB64 l h]

/-- A successful decode emits at most three bytes per four characters
(`DecodedLen` bound at the quantum level). -/
theorem decodeQuanta_length (l : List Nat) :
    ∀ d, decodeQuanta l = .ok d → 4 * d.length ≤ 3 * l.length := by
  induction l using list4Induction with
  | h0 =>
      intro d hd
      simp [decodeQuanta] at hd
      cases hd
      simp
  | h1 a => intro d hd; simp [decodeQuanta] at hd
  | h2 a b =>
      intro d hd
      cases e0 : b64Byte a <;> cases e1 : b64Byte b <;>
        simp [decodeQuanta, e0, e1] at hd
      cases hd
      simp only [List.length_cons, List.length_nil]
      omega
  | h3 a b c =>
      intro d hd
      cases e0 : b64Byte a <;> cases e1 : b64Byte b <;> cases e2 : b64Byte c <;>
        simp [decodeQuanta, e0, e1, e2] at hd
      cases hd
      simp only [List.length_cons, List.length_nil]
      omega
  | h4 a b c e r ih =>
      intro d hd
      cases e0 : b64Byte a <;> cases e1 : b64Byte b <;> cases e2 : b64Byte c <;>
        cases e3 : b64Byte e <;> simp [decodeQuanta, e0, e1, e2, e3] at hd
      cases er : decodeQuanta r with
      | error _ => rw [er] at hd; simp at hd
      | ok ds =>
          rw [er] at hd
          simp at hd
          have := ih ds er
          cases hd
          simp only [List.length_cons, List.length_nil, List.length_append,
            List.cons_append, List.nil_append]
          omega

/-- A successful decode emits only byte values. -/
theorem decodeQuanta_bytes (l : List Nat) :
    ∀ d, decodeQuanta l = .ok d → ∀ x ∈ d, x < 256 := by
  induction l using list4Induction with
  | h0 =>
      intro d hd
      simp [decodeQuanta] at hd
      cases hd
      simp
  | h1 a => intro d hd; simp [decodeQuanta] at hd
  | h2 a b =>
      intro d hd
      cases e0 : b64Byte a <;> cases e1 : b64Byte b <;>
        simp [decodeQuanta, e0, e1] at hd
      cases hd
      intro x hx
      simp only [List.mem_cons, List.not_mem_nil, or_false] at hx
      omega
  | h3 a b c =>
      intro d hd
      cases e0 : b64Byte a <;> cases e1 : b64Byte b <;> cases e2 : b64Byte c <;>
        simp [decodeQuanta, e0, e1, e2] at hd
      cases hd
      intro x hx
      simp only [List.mem_cons, List.not_mem_nil, or_false] at hx
      rcases hx with h | h <;> omega
  | h4 a b c e r ih =>
      intro d hd
      cases e0 : b64Byte a <;> cases e1 : b64Byte b <;> cases e2 : b64Byte c <;>
        cases e3 : b64Byte e <;> simp [decodeQuanta, e0, e1, e2, e3] at hd
      cases er : decodeQuanta r with
      | error _ => rw [er] at hd; simp at hd
      | ok ds =>
          rw [er] at hd
          simp at hd
          cases hd
          intro x hx
          simp only [List.cons_append, List.nil_append, List.mem_cons] at hx
          rcases hx with h | h | h | h
          · omega
          · omega
          · omega
          · exact ih ds er x h

/-- `DecodedLen` bound for the full decoder: at most `6 n / 8` bytes from
`n` characters (the newline filter only shortens the input). -/
theorem decodeB64_length (l d : List Nat) (hd : decodeB64 l = .ok d) :
    d.length ≤ 6 * l.length / 8 := by
  have h1 := decodeQuanta_length _ d hd
  have h2 : (l.filter fun c => c != 10 && c != 13).length ≤ l.length :=
    List.length_filter_le _ l
  omega

/-- Byte bound for the full decoder. -/
theorem decodeB64_bytes (l d : List Nat) (hd : decodeB64 l = .ok d) :
    ∀ x ∈ d, x < 256 :=
  decodeQuanta_bytes _ d hd

/-! ## Little-endian and two's-complement lemmas -/

/-- Reading back the eight little-endian bytes of a `uint64` value. -/
theorem leVal_le64 (n : Nat) (h : n < 18446744073709551616) : leVal (le64 n) = n := by
  simp only [le64, leVal]
  omega

/-- The little-endian bytes of the value a byte list denotes are that
list, for lists of exactly eight bytes. -/
theorem le64_leVal (l : List Nat) (h8 : l.length = 8) (hb : ∀ x ∈ l, x < 256) :
    le64 (leVal l) = l := by
  match l, h8 with
  | [a, b, c, d, e, f, g, h], _ =>
    have ha : a < 256 := hb a (by simp)
    have hbb : b < 256 := hb b (by simp)
    have hc : c < 256 := hb c (by simp)
    have hdd : d < 256 := hb d (by simp)
    have he : e < 256 := hb e (by simp)
    have hf : f < 256 := hb f (by simp)
    have hg : g < 256 := hb g (by simp)
    have hh : h < 256 := hb h (by simp)
    simp only [le64, leVal, List.cons.injEq, and_true]
    refine ⟨?_, ?_, ?_, ?_, ?_, ?_, ?_, ?_⟩ <;> omega

/-- A list of eight bytes denotes a value below `2^64`. -/
theorem leVal_lt (l : List Nat) (h8 : l.length = 8) (hb : ∀ x ∈ l, x < 256) :
    leVal l < 18446744073709551616 := by
  match l, h8 with
  | [a, b, c, d, e, f, g, h], _ =>
    have ha : a < 256 := hb a (by simp)
    have hbb : b < 256 := hb b (by simp)
    have hc : c < 256 := hb c (by simp)
    have hdd : d < 256 := hb d (by simp)
    have he : e < 256 := hb e (by simp)
    have hf : f < 256 := hb f (by simp)
    have hg : g < 256 := hb g (by simp)
    have hh : h < 256 := hb h (by simp)
    simp only [leVal]
    omega

/-- `uint64(int64(n))` is the identity on 64-bit values. -/
theorem toUint64_toInt64 (n : Nat) (h : n < 18446744073709551616) :
    toUint64 (toInt64 n) = n := by
  simp only [toUint64, toInt64]
  split <;> omega

/-- `int64(uint64(i))` is the identity on the `int64` range. -/
theorem toInt64_toUint64 (i : Int) (hlo : -9223372036854775808 ≤ i)
    (hhi : i < 9223372036854775808) : toInt64 (toUint64 i) = i := by
  simp only [toUint64, toInt64]
  have h0 : 0 ≤ i % 18446744073709551616 := Int.emod_nonneg i (by norm_num)
  have h1 : i % 18446744073709551616 < 18446744073709551616 :=
    Int.emod_lt_of_pos i (by norm_num)
  have h2 : i % 18446744073709551616 = i - 18446744073709551616 * (i / 18446744073709551616) :=
    Int.emod_def i 18446744073709551616
  split <;> omega

/-- `uint64` conversion lands below `2^64`. -/
theorem toUint64_lt (i : Int) : toUint64 i < 18446744073709551616 := by
  simp only [toUint64]
  have h0 : 0 ≤ i % 18446744073709551616 := Int.emod_nonneg i (by norm_num)
  have h1 : i % 18446744073709551616 < 18446744073709551616 :=
    Int.emod_lt_of_pos i (by norm_num)
  omega

/-- Each little-endian byte is a byte. -/
theorem le64_bytes (n : Nat) : ∀ x ∈ le64 n, x < 256 := by
  intro x hx
  simp only [le64, List.mem_cons, List.not_mem_nil, or_false] at hx
  rcases hx with h | h | h | h | h | h | h | h <;> omega

/-- `le64` always produces eight bytes. -/
theorem le64_length (n : Nat) : (le64 n).length = 8 := by simp [le64]

/-! ## Scratch-buffer lemmas -/

/-- The timestamp scratch buffer is always eight bytes long. -/
theorem tsScratch_length (d1 : List Nat) (h : d1.length ≤ 8) :
    (tsScratch d1).length = 8 := by
  simp [tsScratch]
  omega

/-- The timestamp scratch buffer holds byte values. -/
theorem tsScratch_bytes (d1 : List Nat) (hb : ∀ x ∈ d1, x < 256) :
    ∀ x ∈ tsScratch d1, x < 256 := by
  intro x hx
  rcases List.mem_append.mp hx with h | h
  · exact hb x h
  · have := List.mem_of_mem_drop h
    simp [List.eq_of_mem_replicate this]

/-- A full eight-byte decode fills the scratch buffer exactly. -/
theorem tsScratch_full (d1 : List Nat) (h : d1.length = 8) : tsScratch d1 = d1 := by
  simp [tsScratch, h]

/-- The salt scratch buffer is always eight bytes long. -/
theorem saltScratch_length (d1 d2 : List Nat) (h1 : d1.length ≤ 8) (h2 : d2.length ≤ 8) :
    (saltScratch d1 d2).length = 8 := by
  simp [saltScratch, tsScratch_length d1 h1]
  omega

/-- The salt scratch buffer holds byte values. -/
theorem saltScratch_bytes (d1 d2 : List Nat) (h1 : ∀ x ∈ d1, x < 256)
    (h2 : ∀ x ∈ d2, x < 256) : ∀ x ∈ saltScratch d1 d2, x < 256 := by
  intro x hx
  rcases List.mem_append.mp hx with h | h
  · exact h2 x h
  · exact tsScratch_bytes d1 h1 x (List.mem_of_mem_drop h)

/-- A full eight-byte salt decode hides the previous scratch contents. -/
theorem saltScratch_full (d1 d2 : List Nat) (h1 : d1.length ≤ 8) (h2 : d2.length = 8) :
    saltScratch d1 d2 = d2 := by
  have := tsScratch_length d1 h1
  simp [saltScratch, h2, List.drop_eq_nil_of_le, this.le]

/-- A full 32-byte decode fills the signature buffer exactly. -/
theorem sigFill_full (d3 : List Nat) (h : d3.length = 32) : sigFill d3 = d3 := by
  simp [sigFill, h]

/-- The signature buffer is always 32 bytes long. -/
theorem sigFill_length (d3 : List Nat) (h : d3.length ≤ 32) : (sigFill d3).length = 32 := by
  simp [sigFill]
  omega

/-! ## Append and buffer-write lemmas -/

/-- Unequal lists of equal length stay unequal after appending anything. -/
theorem append_ne_append (a b x y : List Nat) (hlen : a.length = b.length)
    (hne : a ≠ b) : a ++ x ≠ b ++ y := by
  intro h
  apply hne
  have := congrArg (List.take a.length) h
  rwa [List.take_left, hlen, List.take_left] at this

/-- Writing at the boundary between two lists overwrites the front of the
second. -/
theorem overwriteAt_at (a b data : List Nat) (off : Nat) (hoff : a.length = off) :
    overwriteAt (a ++ b) off data = a ++ data ++ b.drop data.length := by
  subst hoff
  simp only [overwriteAt, List.take_left]
  have hdrop : (a ++ b).drop (a.length + data.length) = b.drop data.length := by
    rw [← List.drop_drop, List.drop_left]
  rw [hdrop]

/-- Writing `data` just past `pre` into a buffer whose tail is zeros
consumes `data.length` zeros. -/
theorem overwriteAt_fill (pre data : List Nat) (off ln rest : Nat)
    (hoff : pre.length = off) (hdata : data.length = ln) :
    overwriteAt (pre ++ List.replicate (ln + rest) 0) off data =
      (pre ++ data) ++ List.replicate rest 0 := by
  rw [overwriteAt_at pre _ data off hoff, List.drop_replicate, hdata]
  have hrest : ln + rest - ln = rest := by omega
  rw [hrest]

/-- Generation lays the four encoded fields out back to back: the token is
`enc(ts) ++ enc(salt) ++ enc(sig) ++ enc(payload)` with no separators and
no slack. -/
theorem gen_eq (mac : Mac) (s : Signer) (sysNow : Int) (sysRand p : List Nat)
    (hsec : minSecretLen ≤ s.Secret.length)
    (hsalt : (s.salt sysRand).length = 8)
    (hsig : (sign mac s p (s.salt sysRand) (s.now sysNow)).length = 32) :
    gen mac s sysNow sysRand p =
      some (encodeB64 (le64 (toUint64 (s.now sysNow))) ++ encodeB64 (s.salt sysRand) ++
        encodeB64 (sign mac s p (s.salt sysRand) (s.now sysNow)) ++ encodeB64 p) := by
  have hts : (encodeB64 (le64 (toUint64 (s.now sysNow)))).length = 11 := by
    rw [length_encodeB64, le64_length]
  have hsa : (encodeB64 (s.salt sysRand)).length = 11 := by
    rw [length_encodeB64, hsalt]
  have hsi : (encodeB64 (sign mac s p (s.salt sysRand) (s.now sysNow))).length = 43 := by
    rw [length_encodeB64, hsig]
  have hpl : (encodeB64 p).length = (8 * p.length + 5) / 6 := length_encodeB64 p
  have hsec32 : 32 ≤ s.Secret.length := hsec
  simp only [gen, encTsLen, encSaltLen, encHeaderLen, encSigLen, minSecretLen]
  rw [if_neg (by omega)]
  congr 1
  norm_num
  have c1 : List.replicate ((8 * p.length + 5) / 6 + 65) 0 =
      [] ++ List.replicate (11 + ((8 * p.length + 5) / 6 + 54)) 0 := by
    rw [List.nil_append]
    congr 1
    omega
  rw [c1, overwriteAt_fill [] _ 0 11 _ rfl hts, List.nil_append]
  have c2 : List.replicate ((8 * p.length + 5) / 6 + 54) 0 =
      List.replicate (11 + ((8 * p.length + 5) / 6 + 43)) 0 := by
    congr 1
    omega
  rw [c2, overwriteAt_fill _ _ 11 11 _ hts hsa]
  have c3 : List.replicate ((8 * p.length + 5) / 6 + 43) 0 =
      List.replicate (43 + (8 * p.length + 5) / 6) 0 := by
    congr 1
    omega
  rw [c3, overwriteAt_fill _ _ 22 43 _ (by rw [List.length_append, hts, hsa]) hsi]
  have c4 : List.replicate ((8 * p.length + 5) / 6) 0 =
      List.replicate ((8 * p.length + 5) / 6 + 0) 0 := by
    congr 1
  rw [c4, overwriteAt_fill _ _ 65 ((8 * p.length + 5) / 6) 0
    (by simp only [List.length_append]; rw [hts, hsa, hsi]) hpl]
  simp [List.append_assoc]

/-! ## Segment view of Parse -/

/-- Salt, signature and payload stages of `Parse`, after the expiry check
has let the token through (`d1` is the decoded timestamp segment). -/
def parseTail (mac : Mac) (s : Signer) (d1 : List Nat) (s2 s3 s4 : List Nat) :
    Option (Except Err (List Nat)) :=
  match decodeB64 s2 with
  | .error _ => some (.error .invalidEncoding)
  | .ok d2 =>
    if d2.length ≤ 8 then
      match decodeB64 s3 with
      | .error _ => some (.error .invalidEncoding)
      | .ok d3 =>
        if d3.length ≤ 32 then
          if 0 < s4.length then
            match decodeB64 s4 with
            | .error _ => some (.error .invalidEncoding)
            | .ok d4 =>
              if d4.length ≤ 6 * s4.length / 8 then
                if sign mac s d4 (saltScratch d1 d2) (tsVal d1) = sigFill d3 then
                  some (.ok d4)
                else some (.error .signatureMismatch)
              else none
          else
            if sign mac s [] (saltScratch d1 d2) (tsVal d1) = sigFill d3 then
              some (.ok [])
            else some (.error .signatureMismatch)
        else none
    else none

/-- `Parse` on a token presented as its four segments (timestamp, salt,
signature, payload characters).  `parse_split` shows `parse` reduces to
this view; all behavioural lemmas go through it. -/
def parseSeg (mac : Mac) (s : Signer) (sysNow : Int) (s1 s2 s3 s4 : List Nat) :
    Option (Except Err (List Nat)) :=
  match decodeB64 s1 with
  | .error _ => some (.error .invalidEncoding)
  | .ok d1 =>
    if d1.length ≤ 8 then
      if tsVal d1 + s.TTL < sysNow then some (.error .timestampExpired)
      else parseTail mac s d1 s2 s3 s4
    else none

/-- On an input split as four segments of the fixed encoded widths,
`parse` is the segmentwise parser. -/
theorem parse_split (mac : Mac) (s : Signer) (sysNow : Int) (s1 s2 s3 s4 : List Nat)
    (h1 : s1.length = encTsLen) (h2 : s2.length = encSaltLen) (h3 : s3.length = encSigLen) :
    parse mac s sysNow (s1 ++ s2 ++ s3 ++ s4) = parseSeg mac s sysNow s1 s2 s3 s4 := by
  have h1a : s1.length = 11 := h1
  have h2a : s2.length = 11 := h2
  have h3a : s3.length = 43 := h3
  have assoc : s1 ++ s2 ++ s3 ++ s4 = s1 ++ (s2 ++ (s3 ++ s4)) := by
    simp [List.append_assoc]
  have hlen : (s1 ++ (s2 ++ (s3 ++ s4))).length = 65 + s4.length := by
    simp only [List.length_append, h1a, h2a, h3a]
    omega
  have e1 : List.take 11 (s1 ++ (s2 ++ (s3 ++ s4))) = s1 := by
    rw [← h1a, List.take_left]
  have e2 : List.drop 11 (s1 ++ (s2 ++ (s3 ++ s4))) = s2 ++ (s3 ++ s4) := by
    rw [← h1a, List.drop_left]
  have e3 : List.take 11 (s2 ++ (s3 ++ s4)) = s2 := by
    rw [← h2a, List.take_left]
  have e4 : List.drop 11 (s2 ++ (s3 ++ s4)) = s3 ++ s4 := by
    rw [← h2a, List.drop_left]
  have e5 : List.take 43 (s3 ++ s4) = s3 := by
    rw [← h3a, List.take_left]
  have e6 : List.drop 43 (s3 ++ s4) = s4 := by
    rw [← h3a, List.drop_left]
  rw [assoc]
  simp only [parse, parseSeg, parseTail, encHeaderLen, encTsLen, encSaltLen, encSigLen,
    hlen, e1, e2, e3, e4, e5, e6]
  rw [if_neg (by omega)]

/-! ## Canonical path: parsing a genuine token -/

/-- The decoded payload always fits the buffer Go allocates for it. -/
theorem payload_fits (m : Nat) : m ≤ 6 * ((8 * m + 5) / 6) / 8 := by
  omega

/-- Parsing the four canonical segments of a genuine token succeeds with
the original payload whenever the embedded timestamp has not expired. -/
theorem parseSeg_canonical (mac : Mac) (s : Signer) (sysNowP issue : Int)
    (saltB p : List Nat)
    (hsalt8 : saltB.length = 8) (hsaltB : ∀ x ∈ saltB, x < 256)
    (hp : ∀ x ∈ p, x < 256)
    (hsig32 : (sign mac s p saltB issue).length = 32)
    (hsigB : ∀ x ∈ sign mac s p saltB issue, x < 256)
    (hfresh : ¬ (toInt64 (toUint64 issue) + s.TTL < sysNowP)) :
    parseSeg mac s sysNowP (encodeB64 (le64 (toUint64 issue))) (encodeB64 saltB)
      (encodeB64 (sign mac s p saltB issue)) (encodeB64 p) = some (.ok p) := by
  have hts : decodeB64 (encodeB64 (le64 (toUint64 issue))) = .ok (le64 (toUint64 issue)) :=
    decodeB64_encodeB64 _ (le64_bytes _)
  have hsa : decodeB64 (encodeB64 saltB) = .ok saltB := decodeB64_encodeB64 _ hsaltB
  have hsi : decodeB64 (encodeB64 (sign mac s p saltB issue)) = .ok (sign mac s p saltB issue) :=
    decodeB64_encodeB64 _ hsigB
  have hts8 : (le64 (toUint64 issue)).length = 8 := le64_length _
  have htv : tsVal (le64 (toUint64 issue)) = toInt64 (toUint64 issue) := by
    rw [tsVal, tsScratch_full _ hts8, leVal_le64 _ (toUint64_lt issue)]
  have hss : saltScratch (le64 (toUint64 issue)) saltB = saltB :=
    saltScratch_full _ _ (by omega) hsalt8
  have hsf : sigFill (sign mac s p saltB issue) = sign mac s p saltB issue :=
    sigFill_full _ hsig32
  have hsigeq : sign mac s p saltB (toInt64 (toUint64 issue)) = sign mac s p saltB issue := by
    rw [sign, sign, toUint64_toInt64 _ (toUint64_lt issue)]
  simp only [parseSeg, parseTail, hts, hsa, hsi, htv, hss, hsf]
  rw [if_pos (by omega), if_neg hfresh, if_pos (by omega), if_pos (by rw [hsig32])]
  rcases Decidable.em (p = []) with hpe | hpe
  · subst hpe
    rw [if_neg (by simp [encodeB64]), if_pos hsigeq]
  · have hpl : 0 < p.length := List.length_pos.mpr hpe
    have hple : (encodeB64 p).length = (8 * p.length + 5) / 6 := length_encodeB64 p
    have hpd : decodeB64 (encodeB64 p) = .ok p := decodeB64_encodeB64 _ hp
    rw [if_pos (by rw [hple]; omega)]
    simp only [hpd]
    rw [if_pos (by rw [hple]; exact payload_fits p.length), if_pos hsigeq]

/-! ## Outcome enumeration -/

/-- After the expiry gate, the remaining stages end in an encoding error, a
signature mismatch, or a decoded payload: never a panic, never `TooShort`,
never `TimestampExpired`. -/
theorem parseTail_cases (mac : Mac) (s : Signer) (d1 s2 s3 s4 : List Nat)
    (h2 : s2.length = 11) (h3 : s3.length = 43) :
    parseTail mac s d1 s2 s3 s4 = some (.error .invalidEncoding) ∨
    parseTail mac s d1 s2 s3 s4 = some (.error .signatureMismatch) ∨
    ∃ pl, parseTail mac s d1 s2 s3 s4 = some (.ok pl) := by
  cases hd2 : decodeB64 s2 with
  | error e => left; simp [parseTail, hd2]
  | ok d2 =>
    have g2 : d2.length ≤ 8 := by
      have := decodeB64_length s2 d2 hd2
      rw [h2] at this
      omega
    cases hd3 : decodeB64 s3 with
    | error e => left; simp [parseTail, hd2, hd3, g2]
    | ok d3 =>
      have g3 : d3.length ≤ 32 := by
        have := decodeB64_length s3 d3 hd3
        rw [h3] at this
        omega
      by_cases h40 : 0 < s4.length
      · cases hd4 : decodeB64 s4 with
        | error e => left; simp [parseTail, hd2, hd3, hd4, g2, g3, h40]
        | ok d4 =>
          have g4 : d4.length ≤ 6 * s4.length / 8 := decodeB64_length s4 d4 hd4
          by_cases hcmp : sign mac s d4 (saltScratch d1 d2) (tsVal d1) = sigFill d3
          · right; right
            exact ⟨d4, by simp [parseTail, hd2, hd3, hd4, g2, g3, h40, g4, hcmp]⟩
          · right; left
            simp [parseTail, hd2, hd3, hd4, g2, g3, h40, g4, hcmp]
      · by_cases hcmp : sign mac s [] (saltScratch d1 d2) (tsVal d1) = sigFill d3
        · right; right
          exact ⟨[], by simp [parseTail, hd2, hd3, g2, g3, h40, hcmp]⟩
        · right; left
          simp [parseTail, hd2, hd3, g2, g3, h40, hcmp]

/-- Any input of at least the encoded header length splits into the four
fixed-width segments `Parse` slices off. -/
theorem token_split (b : List Nat) (h : 65 ≤ b.length) :
    b = b.take 11 ++ (b.drop 11).take 11 ++ ((b.drop 11).drop 11).take 43 ++
      ((b.drop 11).drop 11).drop 43 ∧
    (b.take 11).length = 11 ∧ ((b.drop 11).take 11).length = 11 ∧
    (((b.drop 11).drop 11).take 43).length = 43 := by
  refine ⟨?_, ?_, ?_, ?_⟩
  · have hr : b = b.take 11 ++ ((b.drop 11).take 11 ++
        ((((b.drop 11).drop 11).take 43) ++ ((b.drop 11).drop 11).drop 43)) := by
      conv_lhs => rw [← List.take_append_drop 11 b]
      congr 1
      conv_lhs => rw [← List.take_append_drop 11 (b.drop 11)]
      congr 1
      conv_lhs => rw [← List.take_append_drop 43 ((b.drop 11).drop 11)]
    exact hr.trans (by simp [List.append_assoc])
  · rw [List.length_take]
    omega
  · rw [List.length_take, List.length_drop]
    omega
  · rw [List.length_take, List.length_drop, List.length_drop]
    omega

/-- Short inputs are rejected as `TooShort`. -/
theorem parse_short (mac : Mac) (s : Signer) (sysNow : Int) (b : List Nat)
    (h : b.length < encHeaderLen) : parse mac s sysNow b = some (.error .tooShort) := by
  simp [parse, h]

/-- On long-enough inputs, `parse` is the segmentwise parser applied to the
four slices of the input. -/
theorem parse_on_long (mac : Mac) (s : Signer) (sysNow : Int) (b : List Nat)
    (h : 65 ≤ b.length) :
    parse mac s sysNow b = parseSeg mac s sysNow (b.take 11) ((b.drop 11).take 11)
      (((b.drop 11).drop 11).take 43) (((b.drop 11).drop 11).drop 43) := by
  obtain ⟨hb, l1, l2, l3⟩ := token_split b h
  conv_lhs => rw [hb]
  exact parse_split mac s sysNow _ _ _ _ l1 l2 l3

/-- Every `parse` outcome is `TooShort`, one of the three data errors, or a
decoded payload; in particular `parse` never panics (`none`). -/
theorem parse_cases (mac : Mac) (s : Signer) (sysNow : Int) (b : List Nat) :
    parse mac s sysNow b = some (.error .tooShort) ∨
    parse mac s sysNow b = some (.error .invalidEncoding) ∨
    parse mac s sysNow b = some (.error .timestampExpired) ∨
    parse mac s sysNow b = some (.error .signatureMismatch) ∨
    ∃ pl, parse mac s sysNow b = some (.ok pl) := by
  by_cases h : b.length < 65
  · left
    exact parse_short mac s sysNow b (by simpa [encHeaderLen, encTsLen, encSaltLen, encSigLen])
  · have h65 : 65 ≤ b.length := by omega
    rw [parse_on_long mac s sysNow b h65]
    obtain ⟨hb, l1, l2, l3⟩ := token_split b h65
    cases hd1 : decodeB64 (b.take 11) with
    | error e => right; left; simp [parseSeg, hd1]
    | ok d1 =>
      have g1 : d1.length ≤ 8 := by
        have := decodeB64_length _ d1 hd1
        rw [l1] at this
        omega
      by_cases hexp : tsVal d1 + s.TTL < sysNow
      · right; right; left
        simp [parseSeg, hd1, g1, hexp]
      · have htail := parseTail_cases mac s d1 ((b.drop 11).take 11)
          (((b.drop 11).drop 11).take 43) (((b.drop 11).drop 11).drop 43) l2 l3
        have hred : parseSeg mac s sysNow (b.take 11) ((b.drop 11).take 11)
            (((b.drop 11).drop 11).take 43) (((b.drop 11).drop 11).drop 43) =
            parseTail mac s d1 ((b.drop 11).take 11)
              (((b.drop 11).drop 11).take 43) (((b.drop 11).drop 11).drop 43) := by
          simp [parseSeg, hd1, g1, hexp]
        rw [hred]
        rcases htail with h | h | h
        · right; left; exact h
        · right; right; right; left; exact h
        · right; right; right; right; exact h

/-! ## Concrete instances used by witnesses and counterexamples -/

/-- A concrete stand-in digest function for witness instantiations: a
constant 32-byte output (any `Mac` works for the theorems; witnesses just
need one that evaluates). -/
def macStub : Mac := fun _ _ => List.replicate 32 0

/-- The test fixture signer: 32-byte secret of `'a'`, one-hour-scale TTL,
injected clock at the epoch and injected salt `0..7`. -/
def sEx : Signer :=
  { Secret := List.replicate 32 97, TTL := 3600, nowF := some 0,
    saltF := some [0, 1, 2, 3, 4, 5, 6, 7] }

/-- The test fixture payload `"a@b.c"`. -/
def pEx : List Nat := [97, 64, 98, 46, 99]

/-- The token generated from the fixture. -/
def tokEx : List Nat := (gen macStub sEx 0 [] pEx).getD []

/-- The fixture token for the empty payload. -/
def tokExEmpty : List Nat := (gen macStub sEx 0 [] []).getD []

/-! ## Claims -/

/-- C1 round-trip: for every payload (the empty payload included), a signer
with a secret of at least 32 bytes and positive TTL, and any parse-time
clock not after issue + TTL, `Parse` returns exactly the payload `Gen`
signed, with no error.  Byte-range and digest-width hypotheses record what
Go guarantees by typing (`[]byte` entries, an 8-byte salt fill, a 32-byte
HMAC-SHA256 digest, an `int64` `UnixNano`). -/
theorem gen_parse_roundtrip (mac : Mac) (s : Signer) (sysNowG sysNowP : Int)
    (sysRand p : List Nat)
    (hsec : minSecretLen ≤ s.Secret.length)
    (httl : 0 < s.TTL)
    (hsalt8 : (s.salt sysRand).length = 8)
    (hsaltB : ∀ x ∈ s.salt sysRand, x < 256)
    (hp : ∀ x ∈ p, x < 256)
    (hsig32 : (sign mac s p (s.salt sysRand) (s.now sysNowG)).length = 32)
    (hsigB : ∀ x ∈ sign mac s p (s.salt sysRand) (s.now sysNowG), x < 256)
    (hlo : -9223372036854775808 ≤ s.now sysNowG)
    (hhi : s.now sysNowG < 9223372036854775808)
    (hfresh : sysNowP ≤ s.now sysNowG + s.TTL) :
    ∃ t, gen mac s sysNowG sysRand p = some t ∧
      parse mac s sysNowP t = some (.ok p) := by
  refine ⟨_, gen_eq mac s sysNowG sysRand p hsec hsalt8 hsig32, ?_⟩
  rw [parse_split mac s sysNowP _ _ _ _
    (by rw [length_encodeB64, le64_length]; decide)
    (by rw [length_encodeB64, hsalt8]; decide)
    (by rw [length_encodeB64, hsig32]; decide)]
  apply parseSeg_canonical mac s sysNowP (s.now sysNowG) _ p hsalt8 hsaltB hp hsig32 hsigB
  rw [toInt64_toUint64 _ hlo hhi]
  omega

/-- C1 witness: the fixture round-trips. -/
theorem gen_parse_roundtrip_witness :
    ∃ t, gen macStub sEx 0 [] pEx = some t ∧ parse macStub sEx 5 t = some (.ok pEx) :=
  gen_parse_roundtrip macStub sEx 0 5 [] pEx (by decide) (by decide) (by decide)
    (by decide) (by decide) (by decide) (by decide) (by decide) (by decide) (by decide)

/-- C8 minimum-secret enforcement: a signer whose secret is shorter than 32
bytes makes `Gen` panic (`none`) and never produce a token, for every
clock reading and every randomness reading — the check precedes both
sources. -/
theorem gen_short_secret (mac : Mac) (s : Signer)
    (hshort : s.Secret.length < minSecretLen) :
    ∀ sysNow sysRand payload, gen mac s sysNow sysRand payload = none := by
  intro n r p
  simp [gen, hshort]

/-- C8 witness: an empty secret panics on any input. -/
theorem gen_short_secret_witness :
    gen macStub { Secret := [], TTL := 3600 } 0 [] [] = none :=
  gen_short_secret macStub { Secret := [], TTL := 3600 } (by decide) 0 [] []

/-- C9 totality: `Parse` never panics on any input — every byte sequence
yields `some` result (a payload or one of the defined errors), so all
slice accesses and decode destinations stay in bounds. -/
theorem parse_total (mac : Mac) (s : Signer) (sysNow : Int) (b : List Nat) :
    ∃ r, parse mac s sysNow b = some r := by
  rcases parse_cases mac s sysNow b with h | h | h | h | ⟨pl, h⟩
  exacts [⟨_, h⟩, ⟨_, h⟩, ⟨_, h⟩, ⟨_, h⟩, ⟨_, h⟩]

/-- C3 expiry precedes signature verification: any long-enough input whose
timestamp segment decodes and is stale is rejected as expired, for every
digest function `mac` (so the HMAC value of the token is irrelevant) and
whatever the signature segment holds. -/
theorem expired_before_signature (mac : Mac) (s : Signer) (sysNow : Int)
    (b d1 : List Nat)
    (h65 : encHeaderLen ≤ b.length)
    (hd1 : decodeB64 (b.take encTsLen) = .ok d1)
    (hexp : tsVal d1 + s.TTL < sysNow) :
    parse mac s sysNow b = some (.error .timestampExpired) := by
  have h65a : 65 ≤ b.length := h65
  rw [parse_on_long mac s sysNow b h65a]
  have hd1a : decodeB64 (b.take 11) = .ok d1 := hd1
  have g1 : d1.length ≤ 8 := by
    have hl : (b.take 11).length = 11 := by
      rw [List.length_take]
      omega
    have := decodeB64_length _ d1 hd1a
    rw [hl] at this
    omega
  simp [parseSeg, hd1a, g1, hexp]

/-- C3 witness: an expired timestamp with a garbage (invalid base64)
signature segment still reports expiry. -/
theorem expired_before_signature_witness :
    parse macStub sEx 4000 (encodeB64 (le64 (toUint64 0)) ++ List.replicate 54 36) =
      some (.error .timestampExpired) :=
  expired_before_signature macStub sEx 4000
    (encodeB64 (le64 (toUint64 0)) ++ List.replicate 54 36) (le64 (toUint64 0))
    (by decide) (by decide) (by decide)

/-- C10 clock sourcing: the expiry check in `Parse` reads the system clock
argument only — replacing the injectable `nowF` never changes any `Parse`
outcome — while `Gen` consults the injected clock: with `nowF` set to `t`
its output ignores the system clock entirely and the token's timestamp
segment is the encoding of `t`. -/
theorem parse_ignores_injected_clock (mac : Mac) (s : Signer) (v : Option Int)
    (t sysNow n1 n2 : Int) (b sysRand p : List Nat)
    (hsec : minSecretLen ≤ s.Secret.length)
    (hsalt8 : (s.salt sysRand).length = 8)
    (hsig32 : (sign mac s p (s.salt sysRand) t).length = 32) :
    parse mac { s with nowF := v } sysNow b = parse mac s sysNow b ∧
    gen mac { s with nowF := some t } n1 sysRand p =
      gen mac { s with nowF := some t } n2 sysRand p ∧
    ((gen mac { s with nowF := some t } n1 sysRand p).getD []).take encTsLen =
      encodeB64 (le64 (toUint64 t)) := by
  refine ⟨rfl, rfl, ?_⟩
  have hsec1 : minSecretLen ≤ ({ s with nowF := some t } : Signer).Secret.length := hsec
  have hsalt1 : (Signer.salt { s with nowF := some t } sysRand).length = 8 := hsalt8
  have hsig1 : (sign mac { s with nowF := some t } p
      (Signer.salt { s with nowF := some t } sysRand)
      (Signer.now { s with nowF := some t } n1)).length = 32 := hsig32
  rw [gen_eq mac _ n1 sysRand p hsec1 hsalt1 hsig1]
  have hnow : Signer.now { s with nowF := some t } n1 = t := rfl
  rw [hnow]
  simp only [Option.getD_some]
  have h11 : (encodeB64 (le64 (toUint64 t))).length = 11 := by
    rw [length_encodeB64, le64_length]
  have hassoc : encodeB64 (le64 (toUint64 t)) ++
      encodeB64 (Signer.salt { s with nowF := some t } sysRand) ++
      encodeB64 (sign mac { s with nowF := some t } p
        (Signer.salt { s with nowF := some t } sysRand) t) ++ encodeB64 p =
      encodeB64 (le64 (toUint64 t)) ++
      (encodeB64 (Signer.salt { s with nowF := some t } sysRand) ++
      (encodeB64 (sign mac { s with nowF := some t } p
        (Signer.salt { s with nowF := some t } sysRand) t) ++ encodeB64 p)) := by
    simp [List.append_assoc]
  rw [hassoc]
  have : encTsLen = (encodeB64 (le64 (toUint64 t))).length := by rw [h11]; rfl
  rw [this, List.take_left]

/-- C10 witness: with the fixture signer (injected clock at 0, then moved
to 7), parsing is unchanged and the timestamp segment tracks `t = 7`. -/
theorem parse_ignores_injected_clock_witness :
    parse macStub { sEx with nowF := some 42 } 5 tokEx = parse macStub sEx 5 tokEx ∧
    gen macStub { sEx with nowF := some 7 } 0 [] pEx =
      gen macStub { sEx with nowF := some 7 } 12345 [] pEx ∧
    ((gen macStub { sEx with nowF := some 7 } 0 [] pEx).getD []).take encTsLen =
      encodeB64 (le64 (toUint64 7)) := by
  have h := parse_ignores_injected_clock macStub sEx (some 42) 7 5 0 12345 tokEx [] pEx
    (by decide) (by decide) (by decide)
  exact h

/-- C2 (amended) exclusive expiry boundary: on any long-enough input whose
timestamp segment decodes, `Parse` reports expiry exactly when
`issuedAt + ttl` is strictly before the current time; a token whose
`issuedAt + ttl` equals the current time, or is one nanosecond later, is
not rejected by the expiry check. -/
theorem expiry_boundary_strict (mac : Mac) (s : Signer) (sysNow : Int)
    (b d1 : List Nat)
    (h65 : encHeaderLen ≤ b.length)
    (hd1 : decodeB64 (b.take encTsLen) = .ok d1) :
    parse mac s sysNow b = some (.error .timestampExpired) ↔
      tsVal d1 + s.TTL < sysNow := by
  have h65a : 65 ≤ b.length := h65
  have hd1a : decodeB64 (b.take 11) = .ok d1 := hd1
  have g1 : d1.length ≤ 8 := by
    have hl : (b.take 11).length = 11 := by
      rw [List.length_take]
      omega
    have := decodeB64_length _ d1 hd1a
    rw [hl] at this
    omega
  obtain ⟨hb, l1, l2, l3⟩ := token_split b h65a
  constructor
  · intro h
    by_contra hexp
    rw [parse_on_long mac s sysNow b h65a] at h
    have hred : parseSeg mac s sysNow (b.take 11) ((b.drop 11).take 11)
        (((b.drop 11).drop 11).take 43) (((b.drop 11).drop 11).drop 43) =
        parseTail mac s d1 ((b.drop 11).take 11)
          (((b.drop 11).drop 11).take 43) (((b.drop 11).drop 11).drop 43) := by
      simp [parseSeg, hd1a, g1, hexp]
    rw [hred] at h
    rcases parseTail_cases mac s d1 ((b.drop 11).take 11)
        (((b.drop 11).drop 11).take 43) (((b.drop 11).drop 11).drop 43) l2 l3 with
      hh | hh | ⟨pl, hh⟩ <;> rw [hh] at h <;> simp at h
  · intro hexp
    rw [parse_on_long mac s sysNow b h65a]
    simp [parseSeg, hd1a, g1, hexp]

/-- C2 witness: the strict-boundary characterisation instantiated one
nanosecond past the boundary, where the token is rejected. -/
theorem expiry_boundary_strict_witness :
    parse macStub sEx 3601 tokEx = some (.error .timestampExpired) ↔
      tsVal [0, 0, 0, 0, 0, 0, 0, 0] + sEx.TTL < 3601 :=
  expiry_boundary_strict macStub sEx 3601 tokEx [0, 0, 0, 0, 0, 0, 0, 0]
    (by decide) (by decide)

/-- C2 counterexample: the claim says a token whose `issuedAt + ttl` equals
the current time exactly is rejected as expired; on the fixture token
(issued at 0, TTL 3600) parsed at time exactly 3600, `Parse` instead
succeeds with the payload. -/
theorem expiry_boundary_inclusive_counterexample :
    (0 : Int) + sEx.TTL = 3600 ∧
    parse macStub sEx 3600 tokEx = some (.ok pEx) := by
  constructor
  · decide
  · decide

/-- A long-enough input is never rejected as `TooShort`. -/
theorem parse_long_ne_tooShort (mac : Mac) (s : Signer) (sysNow : Int) (b : List Nat)
    (h65 : 65 ≤ b.length) : parse mac s sysNow b ≠ some (.error .tooShort) := by
  rw [parse_on_long mac s sysNow b h65]
  obtain ⟨hb, l1, l2, l3⟩ := token_split b h65
  cases hd1 : decodeB64 (b.take 11) with
  | error e => simp [parseSeg, hd1]
  | ok d1 =>
    have g1 : d1.length ≤ 8 := by
      have := decodeB64_length _ d1 hd1
      rw [l1] at this
      omega
    by_cases hexp : tsVal d1 + s.TTL < sysNow
    · simp [parseSeg, hd1, g1, hexp]
    · have hred : parseSeg mac s sysNow (b.take 11) ((b.drop 11).take 11)
          (((b.drop 11).drop 11).take 43) (((b.drop 11).drop 11).drop 43) =
          parseTail mac s d1 ((b.drop 11).take 11)
            (((b.drop 11).drop 11).take 43) (((b.drop 11).drop 11).drop 43) := by
        simp [parseSeg, hd1, g1, hexp]
      rw [hred]
      rcases parseTail_cases mac s d1 ((b.drop 11).take 11)
          (((b.drop 11).drop 11).take 43) (((b.drop 11).drop 11).drop 43) l2 l3 with
        hh | hh | ⟨pl, hh⟩ <;> rw [hh] <;> simp

/-- C7 truncation and empty payload: `Parse` reports `TooShort` exactly on
inputs shorter than the encoded header length, and an input of exactly
that length whose header decodes, is unexpired, and carries the correct
signature over the empty payload parses to the empty payload with no
error. -/
theorem parse_tooShort_iff_and_empty_ok (mac : Mac) (s : Signer) (sysNow : Int) :
    (∀ b : List Nat, parse mac s sysNow b = some (.error .tooShort) ↔
      b.length < encHeaderLen) ∧
    (∀ b d1 d2 d3, b.length = encHeaderLen →
      decodeB64 (b.take encTsLen) = .ok d1 →
      decodeB64 ((b.drop encTsLen).take encSaltLen) = .ok d2 →
      decodeB64 (((b.drop encTsLen).drop encSaltLen).take encSigLen) = .ok d3 →
      ¬ (tsVal d1 + s.TTL < sysNow) →
      sign mac s [] (saltScratch d1 d2) (tsVal d1) = sigFill d3 →
      parse mac s sysNow b = some (.ok [])) := by
  constructor
  · intro b
    constructor
    · intro h
      by_contra hlen
      have h65 : 65 ≤ b.length := by
        simp only [encHeaderLen, encTsLen, encSaltLen, encSigLen] at hlen
        omega
      exact parse_long_ne_tooShort mac s sysNow b h65 h
    · intro h
      exact parse_short mac s sysNow b h
  · intro b d1 d2 d3 hlen hd1 hd2 hd3 hexp hsg
    have hlen65 : b.length = 65 := hlen
    have h65 : 65 ≤ b.length := by omega
    have hd1a : decodeB64 (b.take 11) = .ok d1 := hd1
    have hd2a : decodeB64 ((b.drop 11).take 11) = .ok d2 := hd2
    have hd3a : decodeB64 (((b.drop 11).drop 11).take 43) = .ok d3 := hd3
    obtain ⟨hb, l1, l2, l3⟩ := token_split b h65
    have g1 : d1.length ≤ 8 := by
      have := decodeB64_length _ d1 hd1a
      rw [l1] at this
      omega
    have g2 : d2.length ≤ 8 := by
      have := decodeB64_length _ d2 hd2a
      rw [l2] at this
      omega
    have g3 : d3.length ≤ 32 := by
      have := decodeB64_length _ d3 hd3a
      rw [l3] at this
      omega
    have hs4 : ((b.drop 11).drop 11).drop 43 = [] := by
      apply List.eq_nil_of_length_eq_zero
      simp only [List.length_drop]
      omega
    rw [parse_on_long mac s sysNow b h65]
    have hred : parseSeg mac s sysNow (b.take 11) ((b.drop 11).take 11)
        (((b.drop 11).drop 11).take 43) (((b.drop 11).drop 11).drop 43) =
        parseTail mac s d1 ((b.drop 11).take 11)
          (((b.drop 11).drop 11).take 43) (((b.drop 11).drop 11).drop 43) := by
      simp only [parseSeg, hd1a]
      rw [if_pos g1, if_neg hexp]
    rw [hred]
    simp only [parseTail, hd2a]
    rw [if_pos g2]
    simp only [hd3a]
    rw [if_pos g3, hs4, if_neg (by simp), if_pos hsg]

/-- C7 witness: the empty input is too short; a fixture token carrying the
empty payload parses to the empty payload. -/
theorem parse_tooShort_iff_and_empty_ok_witness :
    parse macStub sEx 5 [] = some (.error .tooShort) ∧
    parse macStub sEx 5 tokExEmpty = some (.ok []) := by
  have h := parse_tooShort_iff_and_empty_ok macStub sEx 5
  exact ⟨(h.1 []).mpr (by decide),
    h.2 tokExEmpty [0, 0, 0, 0, 0, 0, 0, 0] [0, 1, 2, 3, 4, 5, 6, 7]
      (List.replicate 32 0) (by decide) (by decide) (by decide) (by decide)
      (by decide) (by decide)⟩

/-- Layout the specification text mandates, stated from the spec's words
for comparison: the fixed-size decoded header (timestamp, salt, signature)
base64-encoded as ONE contiguous unit, immediately followed by the payload
encoding. -/
def specOneUnitToken (mac : Mac) (s : Signer) (sysNow : Int) (sysRand p : List Nat) :
    List Nat :=
  encodeB64 (le64 (toUint64 (s.now sysNow)) ++ s.salt sysRand ++
    sign mac s p (s.salt sysRand) (s.now sysNow)) ++ encodeB64 p

/-- C5 (amended) token wire format: the token is the unpadded URL-safe
base64 encoding of the 8-byte little-endian timestamp, the 8-byte salt,
and the 32-byte signature, each field encoded as its own base64 unit,
concatenated in that order with no separator, followed by the payload
encoding as its own unit. -/
theorem token_wire_format (mac : Mac) (s : Signer) (sysNow : Int) (sysRand p : List Nat)
    (hsec : minSecretLen ≤ s.Secret.length)
    (hsalt8 : (s.salt sysRand).length = 8)
    (hsig32 : (sign mac s p (s.salt sysRand) (s.now sysNow)).length = 32) :
    gen mac s sysNow sysRand p =
      some (encodeB64 (le64 (toUint64 (s.now sysNow))) ++ encodeB64 (s.salt sysRand) ++
        encodeB64 (sign mac s p (s.salt sysRand) (s.now sysNow)) ++ encodeB64 p) :=
  gen_eq mac s sysNow sysRand p hsec hsalt8 hsig32

/-- C5 witness: the fixture token in its four-segment normal form. -/
theorem token_wire_format_witness :
    gen macStub sEx 0 [] pEx =
      some (encodeB64 (le64 (toUint64 (sEx.now 0))) ++ encodeB64 (sEx.salt []) ++
        encodeB64 (sign macStub sEx pEx (sEx.salt []) (sEx.now 0)) ++ encodeB64 pEx) :=
  token_wire_format macStub sEx 0 [] pEx (by decide) (by decide) (by decide)

/-- C5 counterexample: the claim says the whole 48-byte header is encoded
as one contiguous base64 unit; the fixture token differs from that layout
(separate encoding yields a 65-character header, one unit would yield
64). -/
theorem token_one_unit_counterexample :
    gen macStub sEx 0 [] pEx = some tokEx ∧
    tokEx ≠ specOneUnitToken macStub sEx 0 [] pEx := by
  constructor
  · decide
  · decide

/-- If the tail stages accept, the salt and signature segments decoded and
the recomputed digest equals the transmitted one; the returned payload is
the decoded payload segment (or empty when there is none). -/
theorem parseTail_ok_inv (mac : Mac) (s : Signer) (d1 s2 s3 s4 pl : List Nat)
    (h : parseTail mac s d1 s2 s3 s4 = some (.ok pl)) :
    ∃ d2 d3, decodeB64 s2 = .ok d2 ∧ decodeB64 s3 = .ok d3 ∧
      sign mac s pl (saltScratch d1 d2) (tsVal d1) = sigFill d3 := by
  cases hd2 : decodeB64 s2 with
  | error e => rw [parseTail, hd2] at h; simp at h
  | ok d2 =>
    rw [parseTail, hd2] at h
    simp only at h
    by_cases g2 : d2.length ≤ 8
    · rw [if_pos g2] at h
      cases hd3 : decodeB64 s3 with
      | error e => rw [hd3] at h; simp at h
      | ok d3 =>
        rw [hd3] at h
        simp only at h
        by_cases g3 : d3.length ≤ 32
        · rw [if_pos g3] at h
          by_cases h40 : 0 < s4.length
          · rw [if_pos h40] at h
            cases hd4 : decodeB64 s4 with
            | error e => rw [hd4] at h; simp at h
            | ok d4 =>
              rw [hd4] at h
              simp only at h
              by_cases g4 : d4.length ≤ 6 * s4.length / 8
              · rw [if_pos g4] at h
                by_cases hcmp : sign mac s d4 (saltScratch d1 d2) (tsVal d1) = sigFill d3
                · rw [if_pos hcmp] at h
                  simp at h
                  subst h
                  exact ⟨d2, d3, rfl, rfl, hcmp⟩
                · rw [if_neg hcmp] at h
                  simp at h
              · rw [if_neg g4] at h
                simp at h
          · rw [if_neg h40] at h
            by_cases hcmp : sign mac s [] (saltScratch d1 d2) (tsVal d1) = sigFill d3
            · rw [if_pos hcmp] at h
              simp at h
              subst h
              exact ⟨d2, d3, rfl, rfl, hcmp⟩
            · rw [if_neg hcmp] at h
              simp at h
        · rw [if_neg g3] at h
          simp at h
    · rw [if_neg g2] at h
      simp at h

/-- C6 signature definition: the signature `Gen` embeds (third token
segment) is the digest keyed by the secret over exactly the 8 little-endian
timestamp bytes, then the 8 salt bytes, then the raw payload, in that
order; and whenever `Parse` accepts, the digest recomputed over the decoded
timestamp, salt and payload equals the transmitted signature. -/
theorem signature_covers_fields (mac : Mac) (s : Signer) (sysNowG sysNowP : Int)
    (sysRand p b pl : List Nat)
    (hsec : minSecretLen ≤ s.Secret.length)
    (hsalt8 : (s.salt sysRand).length = 8)
    (hsig32 : (sign mac s p (s.salt sysRand) (s.now sysNowG)).length = 32) :
    (((gen mac s sysNowG sysRand p).getD []).drop (encTsLen + encSaltLen)).take encSigLen =
      encodeB64 (mac s.Secret (le64 (toUint64 (s.now sysNowG)) ++ s.salt sysRand ++ p)) ∧
    (parse mac s sysNowP b = some (.ok pl) →
      ∃ d1 d2 d3, decodeB64 (b.take encTsLen) = .ok d1 ∧
        decodeB64 ((b.drop encTsLen).take encSaltLen) = .ok d2 ∧
        decodeB64 (((b.drop encTsLen).drop encSaltLen).take encSigLen) = .ok d3 ∧
        mac s.Secret (le64 (toUint64 (tsVal d1)) ++ saltScratch d1 d2 ++ pl) = sigFill d3) := by
  constructor
  · rw [gen_eq mac s sysNowG sysRand p hsec hsalt8 hsig32]
    simp only [Option.getD_some]
    have hts : (encodeB64 (le64 (toUint64 (s.now sysNowG)))).length = 11 := by
      rw [length_encodeB64, le64_length]
    have hsa : (encodeB64 (s.salt sysRand)).length = 11 := by
      rw [length_encodeB64, hsalt8]
    have hsi : (encodeB64 (sign mac s p (s.salt sysRand) (s.now sysNowG))).length = 43 := by
      rw [length_encodeB64, hsig32]
    have hassoc : encodeB64 (le64 (toUint64 (s.now sysNowG))) ++ encodeB64 (s.salt sysRand) ++
        encodeB64 (sign mac s p (s.salt sysRand) (s.now sysNowG)) ++ encodeB64 p =
        (encodeB64 (le64 (toUint64 (s.now sysNowG))) ++ encodeB64 (s.salt sysRand)) ++
        (encodeB64 (sign mac s p (s.salt sysRand) (s.now sysNowG)) ++ encodeB64 p) := by
      simp [List.append_assoc]
    rw [hassoc]
    have hoff : encTsLen + encSaltLen =
        (encodeB64 (le64 (toUint64 (s.now sysNowG))) ++ encodeB64 (s.salt sysRand)).length := by
      rw [List.length_append, hts, hsa]
      decide
    rw [hoff, List.drop_left]
    have hsig43 : encSigLen =
        (encodeB64 (sign mac s p (s.salt sysRand) (s.now sysNowG))).length := by
      rw [hsi]
      decide
    rw [hsig43, List.take_left]
    rfl
  · intro h
    have h65 : 65 ≤ b.length := by
      by_contra hlt
      rw [parse_short mac s sysNowP b
        (by simp only [encHeaderLen, encTsLen, encSaltLen, encSigLen]; omega)] at h
      simp at h
    rw [parse_on_long mac s sysNowP b h65] at h
    cases hd1 : decodeB64 (b.take 11) with
    | error e => rw [parseSeg, hd1] at h; simp at h
    | ok d1 =>
      rw [parseSeg, hd1] at h
      simp only at h
      obtain ⟨hb, l1, l2, l3⟩ := token_split b h65
      have g1 : d1.length ≤ 8 := by
        have := decodeB64_length _ d1 hd1
        rw [l1] at this
        omega
      rw [if_pos g1] at h
      by_cases hexp : tsVal d1 + s.TTL < sysNowP
      · rw [if_pos hexp] at h
        simp at h
      · rw [if_neg hexp] at h
        obtain ⟨d2, d3, hd2, hd3, hcmp⟩ := parseTail_ok_inv mac s d1 _ _ _ pl h
        exact ⟨d1, d2, d3, hd1, hd2, hd3, hcmp⟩

/-- C6 witness: instantiated on the fixture token and its parse. -/
theorem signature_covers_fields_witness :
    (((gen macStub sEx 0 [] pEx).getD []).drop (encTsLen + encSaltLen)).take encSigLen =
      encodeB64 (macStub sEx.Secret (le64 (toUint64 (sEx.now 0)) ++ sEx.salt [] ++ pEx)) ∧
    (parse macStub sEx 5 tokEx = some (.ok pEx) →
      ∃ d1 d2 d3, decodeB64 (tokEx.take encTsLen) = .ok d1 ∧
        decodeB64 ((tokEx.drop encTsLen).take encSaltLen) = .ok d2 ∧
        decodeB64 (((tokEx.drop encTsLen).drop encSaltLen).take encSigLen) = .ok d3 ∧
        macStub sEx.Secret (le64 (toUint64 (tsVal d1)) ++ saltScratch d1 d2 ++ pEx) =
          sigFill d3) :=
  signature_covers_fields macStub sEx 0 5 [] pEx tokEx pEx (by decide) (by decide)
    (by decide)

/-! ## Tamper analysis -/

/-- Outcomes a single-byte change of a genuine token can produce: one of
the three data errors, success with the original payload, or an outright
collision of the keyed digest (two different messages with the same
digest under the token's secret). -/
abbrev tamperOk (mac : Mac) (s : Signer) (msg : List Nat)
    (r : Option (Except Err (List Nat))) (p : List Nat) : Prop :=
  r = some (.error .invalidEncoding) ∨ r = some (.error .timestampExpired) ∨
  r = some (.error .signatureMismatch) ∨ r = some (.ok p) ∨
  ∃ m, m ≠ msg ∧ mac s.Secret m = mac s.Secret msg

/-- The timestamp bytes `Parse` re-signs over are exactly the scratch
buffer contents. -/
theorem le64_tsVal (d1 : List Nat) (g1 : d1.length ≤ 8) (hb : ∀ x ∈ d1, x < 256) :
    le64 (toUint64 (tsVal d1)) = tsScratch d1 := by
  rw [tsVal, toUint64_toInt64 _ (leVal_lt _ (tsScratch_length d1 g1) (tsScratch_bytes d1 hb))]
  exact le64_leVal _ (tsScratch_length d1 g1) (tsScratch_bytes d1 hb)

/-- Tail evaluation: when salt and signature segments decode and the
payload segment is a genuine encoding, the tail reduces to the final
signature comparison. -/
theorem parseTail_eval (mac : Mac) (s : Signer) (d1 s2 d2 s3 d3 p : List Nat)
    (hd2 : decodeB64 s2 = .ok d2) (g2 : d2.length ≤ 8)
    (hd3 : decodeB64 s3 = .ok d3) (g3 : d3.length ≤ 32)
    (hp : ∀ x ∈ p, x < 256) :
    parseTail mac s d1 s2 s3 (encodeB64 p) =
      if sign mac s p (saltScratch d1 d2) (tsVal d1) = sigFill d3 then some (.ok p)
      else some (.error .signatureMismatch) := by
  simp only [parseTail, hd2]
  rw [if_pos g2]
  simp only [hd3]
  rw [if_pos g3]
  rcases Decidable.em (p = []) with hpe | hpe
  · subst hpe
    rw [if_neg (by simp [encodeB64])]
  · have hpl : 0 < p.length := List.length_pos.mpr hpe
    have hple : (encodeB64 p).length = (8 * p.length + 5) / 6 := length_encodeB64 p
    have hpd : decodeB64 (encodeB64 p) = .ok p := decodeB64_encodeB64 _ hp
    rw [if_pos (by rw [hple]; omega)]
    simp only [hpd]
    rw [if_pos (by rw [hple]; exact payload_fits p.length)]

/-- A tampered timestamp segment: decode failure, expiry, mismatch,
success with the original payload, or a digest collision. -/
theorem tamper_ts_seg (mac : Mac) (s : Signer) (n issue : Int) (saltB p s1 : List Nat)
    (hsalt8 : saltB.length = 8) (hsaltB : ∀ x ∈ saltB, x < 256)
    (hp : ∀ x ∈ p, x < 256)
    (hsig32 : (sign mac s p saltB issue).length = 32)
    (hsigB : ∀ x ∈ sign mac s p saltB issue, x < 256)
    (h1 : s1.length = 11) :
    tamperOk mac s (le64 (toUint64 issue) ++ saltB ++ p)
      (parseSeg mac s n s1 (encodeB64 saltB)
        (encodeB64 (sign mac s p saltB issue)) (encodeB64 p)) p := by
  cases hd1 : decodeB64 s1 with
  | error e =>
      left
      simp [parseSeg, hd1]
  | ok d1 =>
    have g1 : d1.length ≤ 8 := by
      have := decodeB64_length _ _ hd1
      rw [h1] at this
      omega
    have hd1B : ∀ x ∈ d1, x < 256 := decodeB64_bytes _ _ hd1
    by_cases hexp : tsVal d1 + s.TTL < n
    · right; left
      simp [parseSeg, hd1, g1, hexp]
    · have hred : parseSeg mac s n s1 (encodeB64 saltB)
          (encodeB64 (sign mac s p saltB issue)) (encodeB64 p) =
          parseTail mac s d1 (encodeB64 saltB)
            (encodeB64 (sign mac s p saltB issue)) (encodeB64 p) := by
        simp only [parseSeg, hd1]
        rw [if_pos g1, if_neg hexp]
      rw [hred, parseTail_eval mac s d1 (encodeB64 saltB) saltB
        (encodeB64 (sign mac s p saltB issue)) (sign mac s p saltB issue) p
        (decodeB64_encodeB64 _ hsaltB) (by omega)
        (decodeB64_encodeB64 _ hsigB) (by omega) hp]
      rw [saltScratch_full d1 saltB g1 hsalt8, sigFill_full _ hsig32]
      have hm : sign mac s p saltB (tsVal d1) =
          mac s.Secret (tsScratch d1 ++ saltB ++ p) := by
        rw [sign, le64_tsVal d1 g1 hd1B]
      by_cases heq : tsScratch d1 = le64 (toUint64 issue)
      · have hcond : sign mac s p saltB (tsVal d1) = sign mac s p saltB issue := by
          rw [hm, heq]
          rfl
        rw [if_pos hcond]
        right; right; right; left
        rfl
      · have hne : tsScratch d1 ++ saltB ++ p ≠ le64 (toUint64 issue) ++ saltB ++ p := by
          apply append_ne_append
          · simp only [List.length_append, tsScratch_length d1 g1, le64_length]
          · exact append_ne_append _ _ _ _
              (by rw [tsScratch_length d1 g1, le64_length]) heq
        by_cases hmac : mac s.Secret (tsScratch d1 ++ saltB ++ p) =
            mac s.Secret (le64 (toUint64 issue) ++ saltB ++ p)
        · right; right; right; right
          exact ⟨_, hne, hmac⟩
        · have hcond : ¬ sign mac s p saltB (tsVal d1) = sign mac s p saltB issue := by
            rw [hm]
            intro hcontra
            exact hmac (hcontra.trans rfl)
          rw [if_neg hcond]
          right; right; left
          rfl

/-- A tampered salt segment: decode failure, expiry, mismatch, success
with the original payload, or a digest collision. -/
theorem tamper_salt_seg (mac : Mac) (s : Signer) (n issue : Int) (saltB p s2 : List Nat)
    (hsalt8 : saltB.length = 8)
    (hp : ∀ x ∈ p, x < 256)
    (hsig32 : (sign mac s p saltB issue).length = 32)
    (hsigB : ∀ x ∈ sign mac s p saltB issue, x < 256)
    (h2 : s2.length = 11) :
    tamperOk mac s (le64 (toUint64 issue) ++ saltB ++ p)
      (parseSeg mac s n (encodeB64 (le64 (toUint64 issue))) s2
        (encodeB64 (sign mac s p saltB issue)) (encodeB64 p)) p := by
  have hd1 : decodeB64 (encodeB64 (le64 (toUint64 issue))) = .ok (le64 (toUint64 issue)) :=
    decodeB64_encodeB64 _ (le64_bytes _)
  have g1 : (le64 (toUint64 issue)).length ≤ 8 := by rw [le64_length]
  by_cases hexp : tsVal (le64 (toUint64 issue)) + s.TTL < n
  · right; left
    simp [parseSeg, hd1, g1, hexp]
  · have hred : parseSeg mac s n (encodeB64 (le64 (toUint64 issue))) s2
        (encodeB64 (sign mac s p saltB issue)) (encodeB64 p) =
        parseTail mac s (le64 (toUint64 issue)) s2
          (encodeB64 (sign mac s p saltB issue)) (encodeB64 p) := by
      simp only [parseSeg, hd1]
      rw [if_pos g1, if_neg hexp]
    rw [hred]
    cases hd2 : decodeB64 s2 with
    | error e =>
        left
        simp [parseTail, hd2]
    | ok d2 =>
      have g2 : d2.length ≤ 8 := by
        have := decodeB64_length _ _ hd2
        rw [h2] at this
        omega
      rw [parseTail_eval mac s (le64 (toUint64 issue)) s2 d2
        (encodeB64 (sign mac s p saltB issue)) (sign mac s p saltB issue) p
        hd2 g2 (decodeB64_encodeB64 _ hsigB) (by omega) hp]
      rw [sigFill_full _ hsig32]
      have hm : sign mac s p (saltScratch (le64 (toUint64 issue)) d2)
          (tsVal (le64 (toUint64 issue))) =
          mac s.Secret (le64 (toUint64 issue) ++
            saltScratch (le64 (toUint64 issue)) d2 ++ p) := by
        rw [sign, le64_tsVal _ g1 (le64_bytes _), tsScratch_full _ (le64_length _)]
      have hsslen : (saltScratch (le64 (toUint64 issue)) d2).length = 8 :=
        saltScratch_length _ _ g1 g2
      by_cases heq : saltScratch (le64 (toUint64 issue)) d2 = saltB
      · have hcond : sign mac s p (saltScratch (le64 (toUint64 issue)) d2)
            (tsVal (le64 (toUint64 issue))) = sign mac s p saltB issue := by
          rw [hm, heq]
          rfl
        rw [if_pos hcond]
        right; right; right; left
        rfl
      · have hne : le64 (toUint64 issue) ++ saltScratch (le64 (toUint64 issue)) d2 ++ p ≠
            le64 (toUint64 issue) ++ saltB ++ p := by
          apply append_ne_append
          · simp only [List.length_append, hsslen, hsalt8]
          · intro hcontra
            exact heq (List.append_cancel_left hcontra)
        by_cases hmac : mac s.Secret (le64 (toUint64 issue) ++
            saltScratch (le64 (toUint64 issue)) d2 ++ p) =
            mac s.Secret (le64 (toUint64 issue) ++ saltB ++ p)
        · right; right; right; right
          exact ⟨_, hne, hmac⟩
        · have hcond : ¬ sign mac s p (saltScratch (le64 (toUint64 issue)) d2)
              (tsVal (le64 (toUint64 issue))) = sign mac s p saltB issue := by
            rw [hm]
            intro hcontra
            exact hmac (hcontra.trans rfl)
          rw [if_neg hcond]
          right; right; left
          rfl

/-- A tampered signature segment: decode failure, expiry, mismatch, or
success with the original payload. -/
theorem tamper_sig_seg (mac : Mac) (s : Signer) (n issue : Int) (saltB p s3 : List Nat)
    (hsalt8 : saltB.length = 8) (hsaltB : ∀ x ∈ saltB, x < 256)
    (hp : ∀ x ∈ p, x < 256)
    (h3 : s3.length = 43) :
    tamperOk mac s (le64 (toUint64 issue) ++ saltB ++ p)
      (parseSeg mac s n (encodeB64 (le64 (toUint64 issue))) (encodeB64 saltB)
        s3 (encodeB64 p)) p := by
  have hd1 : decodeB64 (encodeB64 (le64 (toUint64 issue))) = .ok (le64 (toUint64 issue)) :=
    decodeB64_encodeB64 _ (le64_bytes _)
  have g1 : (le64 (toUint64 issue)).length ≤ 8 := by rw [le64_length]
  by_cases hexp : tsVal (le64 (toUint64 issue)) + s.TTL < n
  · right; left
    simp [parseSeg, hd1, g1, hexp]
  · have hred : parseSeg mac s n (encodeB64 (le64 (toUint64 issue))) (encodeB64 saltB)
        s3 (encodeB64 p) =
        parseTail mac s (le64 (toUint64 issue)) (encodeB64 saltB) s3 (encodeB64 p) := by
      simp only [parseSeg, hd1]
      rw [if_pos g1, if_neg hexp]
    rw [hred]
    cases hd3 : decodeB64 s3 with
    | error e =>
        left
        simp [parseTail, decodeB64_encodeB64 _ hsaltB, hsalt8, hd3]
    | ok d3 =>
      have g3 : d3.length ≤ 32 := by
        have := decodeB64_length _ _ hd3
        rw [h3] at this
        omega
      rw [parseTail_eval mac s (le64 (toUint64 issue)) (encodeB64 saltB) saltB
        s3 d3 p (decodeB64_encodeB64 _ hsaltB) (by omega) hd3 g3 hp]
      have hcanon : sign mac s p (saltScratch (le64 (toUint64 issue)) saltB)
          (tsVal (le64 (toUint64 issue))) = sign mac s p saltB issue := by
        rw [saltScratch_full _ _ g1 hsalt8, sign, sign,
          le64_tsVal _ g1 (le64_bytes _), tsScratch_full _ (le64_length _)]
      rw [hcanon]
      by_cases hcmp : sign mac s p saltB issue = sigFill d3
      · rw [if_pos hcmp]
        right; right; right; left
        rfl
      · rw [if_neg hcmp]
        right; right; left
        rfl

/-- A tampered payload segment: decode failure, expiry, mismatch, success
with the original payload, or a digest collision. -/
theorem tamper_payload_seg (mac : Mac) (s : Signer) (n issue : Int)
    (saltB p s4 : List Nat)
    (hsalt8 : saltB.length = 8) (hsaltB : ∀ x ∈ saltB, x < 256)
    (hsig32 : (sign mac s p saltB issue).length = 32)
    (hsigB : ∀ x ∈ sign mac s p saltB issue, x < 256) :
    tamperOk mac s (le64 (toUint64 issue) ++ saltB ++ p)
      (parseSeg mac s n (encodeB64 (le64 (toUint64 issue))) (encodeB64 saltB)
        (encodeB64 (sign mac s p saltB issue)) s4) p := by
  have hd1 : decodeB64 (encodeB64 (le64 (toUint64 issue))) = .ok (le64 (toUint64 issue)) :=
    decodeB64_encodeB64 _ (le64_bytes _)
  have g1 : (le64 (toUint64 issue)).length ≤ 8 := by rw [le64_length]
  by_cases hexp : tsVal (le64 (toUint64 issue)) + s.TTL < n
  · right; left
    simp [parseSeg, hd1, g1, hexp]
  · have hred : parseSeg mac s n (encodeB64 (le64 (toUint64 issue))) (encodeB64 saltB)
        (encodeB64 (sign mac s p saltB issue)) s4 =
        parseTail mac s (le64 (toUint64 issue)) (encodeB64 saltB)
          (encodeB64 (sign mac s p saltB issue)) s4 := by
      simp only [parseSeg, hd1]
      rw [if_pos g1, if_neg hexp]
    rw [hred]
    have hsa : decodeB64 (encodeB64 saltB) = .ok saltB := decodeB64_encodeB64 _ hsaltB
    have hsi : decodeB64 (encodeB64 (sign mac s p saltB issue)) =
        .ok (sign mac s p saltB issue) := decodeB64_encodeB64 _ hsigB
    have hcanon : sign mac s p (saltScratch (le64 (toUint64 issue)) saltB)
        (tsVal (le64 (toUint64 issue))) = sign mac s p saltB issue := by
      rw [saltScratch_full _ _ g1 hsalt8, sign, sign,
        le64_tsVal _ g1 (le64_bytes _), tsScratch_full _ (le64_length _)]
    have hmgen : ∀ q : List Nat, sign mac s q (saltScratch (le64 (toUint64 issue)) saltB)
        (tsVal (le64 (toUint64 issue))) =
        mac s.Secret (le64 (toUint64 issue) ++ saltB ++ q) := by
      intro q
      rw [saltScratch_full _ _ g1 hsalt8, sign,
        le64_tsVal _ g1 (le64_bytes _), tsScratch_full _ (le64_length _)]
    simp only [parseTail, hsa]
    rw [if_pos (by omega)]
    simp only [hsi]
    rw [if_pos (by omega), sigFill_full _ hsig32]
    by_cases h40 : 0 < s4.length
    · rw [if_pos h40]
      cases hd4 : decodeB64 s4 with
      | error e => left; simp
      | ok d4 =>
        simp only
        have g4 : d4.length ≤ 6 * s4.length / 8 := decodeB64_length _ _ hd4
        rw [if_pos g4]
        by_cases hpeq : d4 = p
        · subst hpeq
          rw [if_pos hcanon]
          right; right; right; left
          rfl
        · have hne : le64 (toUint64 issue) ++ saltB ++ d4 ≠
              le64 (toUint64 issue) ++ saltB ++ p := by
            intro hcontra
            exact hpeq (List.append_cancel_left hcontra)
          by_cases hmac : mac s.Secret (le64 (toUint64 issue) ++ saltB ++ d4) =
              mac s.Secret (le64 (toUint64 issue) ++ saltB ++ p)
          · right; right; right; right
            exact ⟨_, hne, hmac⟩
          · have hcond : ¬ sign mac s d4 (saltScratch (le64 (toUint64 issue)) saltB)
                (tsVal (le64 (toUint64 issue))) = sign mac s p saltB issue := by
              rw [hmgen d4]
              intro hcontra
              exact hmac (hcontra.trans rfl)
            rw [if_neg hcond]
            right; right; left
            rfl
    · rw [if_neg h40]
      by_cases hpeq : p = []
      · subst hpeq
        rw [if_pos hcanon]
        right; right; right; left
        rfl
      · have hne : le64 (toUint64 issue) ++ saltB ++ ([] : List Nat) ≠
            le64 (toUint64 issue) ++ saltB ++ p := by
          intro hcontra
          exact hpeq (List.append_cancel_left hcontra).symm
        by_cases hmac : mac s.Secret (le64 (toUint64 issue) ++ saltB ++ ([] : List Nat)) =
            mac s.Secret (le64 (toUint64 issue) ++ saltB ++ p)
        · right; right; right; right
          exact ⟨_, hne, hmac⟩
        · have hcond : ¬ sign mac s [] (saltScratch (le64 (toUint64 issue)) saltB)
              (tsVal (le64 (toUint64 issue))) = sign mac s p saltB issue := by
            rw [hmgen []]
            intro hcontra
            exact hmac (hcontra.trans rfl)
          rw [if_neg hcond]
          right; right; left
          rfl

/-- Setting one position of a four-segment token touches exactly one
segment. -/
theorem set4_cases (e1 e2 e3 e4 : List Nat) (i c : Nat)
    (l1 : e1.length = 11) (l2 : e2.length = 11) (l3 : e3.length = 43) :
    (i < 11 ∧ (e1 ++ e2 ++ e3 ++ e4).set i c = e1.set i c ++ e2 ++ e3 ++ e4) ∨
    (11 ≤ i ∧ i < 22 ∧
      (e1 ++ e2 ++ e3 ++ e4).set i c = e1 ++ e2.set (i - 11) c ++ e3 ++ e4) ∨
    (22 ≤ i ∧ i < 65 ∧
      (e1 ++ e2 ++ e3 ++ e4).set i c = e1 ++ e2 ++ e3.set (i - 22) c ++ e4) ∨
    (65 ≤ i ∧
      (e1 ++ e2 ++ e3 ++ e4).set i c = e1 ++ e2 ++ e3 ++ e4.set (i - 65) c) := by
  have h22 : (e1 ++ e2).length = 22 := by
    simp only [List.length_append, l1, l2]
  have h65 : (e1 ++ e2 ++ e3).length = 65 := by
    simp only [List.length_append, l1, l2, l3]
  by_cases c1 : i < 11
  · left
    refine ⟨c1, ?_⟩
    rw [List.set_append, if_pos (by omega : i < (e1 ++ e2 ++ e3).length)]
    rw [List.set_append, if_pos (by omega : i < (e1 ++ e2).length)]
    rw [List.set_append, if_pos (by omega : i < e1.length)]
  · by_cases c2 : i < 22
    · right; left
      refine ⟨by omega, c2, ?_⟩
      rw [List.set_append, if_pos (by omega : i < (e1 ++ e2 ++ e3).length)]
      rw [List.set_append, if_pos (by omega : i < (e1 ++ e2).length)]
      rw [List.set_append, if_neg (by omega : ¬ i < e1.length), l1]
    · by_cases c3 : i < 65
      · right; right; left
        refine ⟨by omega, c3, ?_⟩
        rw [List.set_append, if_pos (by omega : i < (e1 ++ e2 ++ e3).length)]
        rw [List.set_append, if_neg (by omega : ¬ i < (e1 ++ e2).length), h22]
      · right; right; right
        refine ⟨by omega, ?_⟩
        rw [List.set_append, if_neg (by omega : ¬ i < (e1 ++ e2 ++ e3).length), h65]

/-- C4 (amended) tamper sensitivity: changing any single byte of a
generated token makes `Parse` fail with the invalid-encoding,
timestamp-expired, or signature-mismatch error, or succeed returning
exactly the original payload (possible because the unpadded base64
decoder ignores non-zero trailing padding bits and skips CR/LF bytes);
it can succeed with any other payload only if the change produces an
outright HMAC collision — two distinct messages with the same digest
under the token's secret. -/
theorem tamper_single_byte (mac : Mac) (s : Signer) (sysNowG sysNowP : Int)
    (sysRand p t : List Nat) (i c : Nat)
    (hsec : minSecretLen ≤ s.Secret.length)
    (hsalt8 : (s.salt sysRand).length = 8)
    (hsaltB : ∀ x ∈ s.salt sysRand, x < 256)
    (hp : ∀ x ∈ p, x < 256)
    (hsig32 : (sign mac s p (s.salt sysRand) (s.now sysNowG)).length = 32)
    (hsigB : ∀ x ∈ sign mac s p (s.salt sysRand) (s.now sysNowG), x < 256)
    (hgen : gen mac s sysNowG sysRand p = some t)
    (hi : i < t.length) (hc : c ≠ t.getD i 0) :
    parse mac s sysNowP (t.set i c) = some (.error .invalidEncoding) ∨
    parse mac s sysNowP (t.set i c) = some (.error .timestampExpired) ∨
    parse mac s sysNowP (t.set i c) = some (.error .signatureMismatch) ∨
    parse mac s sysNowP (t.set i c) = some (.ok p) ∨
    ∃ m, m ≠ le64 (toUint64 (s.now sysNowG)) ++ s.salt sysRand ++ p ∧
      mac s.Secret m =
        mac s.Secret (le64 (toUint64 (s.now sysNowG)) ++ s.salt sysRand ++ p) := by
  rw [gen_eq mac s sysNowG sysRand p hsec hsalt8 hsig32] at hgen
  injection hgen with ht
  subst ht
  have l1 : (encodeB64 (le64 (toUint64 (s.now sysNowG)))).length = 11 := by
    rw [length_encodeB64, le64_length]
  have l2 : (encodeB64 (s.salt sysRand)).length = 11 := by
    rw [length_encodeB64, hsalt8]
  have l3 : (encodeB64 (sign mac s p (s.salt sysRand) (s.now sysNowG))).length = 43 := by
    rw [length_encodeB64, hsig32]
  rcases set4_cases (encodeB64 (le64 (toUint64 (s.now sysNowG))))
      (encodeB64 (s.salt sysRand))
      (encodeB64 (sign mac s p (s.salt sysRand) (s.now sysNowG)))
      (encodeB64 p) i c l1 l2 l3 with
    ⟨hlt, hset⟩ | ⟨hge, hlt, hset⟩ | ⟨hge, hlt, hset⟩ | ⟨hge, hset⟩
  · rw [hset, parse_split mac s sysNowP _ _ _ _
      (by rw [List.length_set]; exact l1) l2 l3]
    exact tamper_ts_seg mac s sysNowP (s.now sysNowG) (s.salt sysRand) p _
      hsalt8 hsaltB hp hsig32 hsigB (by rw [List.length_set]; exact l1)
  · rw [hset, parse_split mac s sysNowP _ _ _ _ l1
      (by rw [List.length_set]; exact l2) l3]
    exact tamper_salt_seg mac s sysNowP (s.now sysNowG) (s.salt sysRand) p _
      hsalt8 hp hsig32 hsigB (by rw [List.length_set]; exact l2)
  · rw [hset, parse_split mac s sysNowP _ _ _ _ l1 l2
      (by rw [List.length_set]; exact l3)]
    exact tamper_sig_seg mac s sysNowP (s.now sysNowG) (s.salt sysRand) p _
      hsalt8 hsaltB hp (by rw [List.length_set]; exact l3)
  · rw [hset, parse_split mac s sysNowP _ _ _ _ l1 l2 l3]
    exact tamper_payload_seg mac s sysNowP (s.now sysNowG) (s.salt sysRand) p _
      hsalt8 hsaltB hsig32 hsigB

/-- C4 witness: flipping a data bit in the fixture token's salt segment
(position 12, `A` to `B`) lands in one of the allowed outcomes. -/
theorem tamper_single_byte_witness :
    parse macStub sEx 5 (tokEx.set 12 66) = some (.error .invalidEncoding) ∨
    parse macStub sEx 5 (tokEx.set 12 66) = some (.error .timestampExpired) ∨
    parse macStub sEx 5 (tokEx.set 12 66) = some (.error .signatureMismatch) ∨
    parse macStub sEx 5 (tokEx.set 12 66) = some (.ok pEx) ∨
    ∃ m, m ≠ le64 (toUint64 (sEx.now 0)) ++ sEx.salt [] ++ pEx ∧
      macStub sEx.Secret m =
        macStub sEx.Secret (le64 (toUint64 (sEx.now 0)) ++ sEx.salt [] ++ pEx) :=
  tamper_single_byte macStub sEx 0 5 [] pEx tokEx 12 66 (by decide) (by decide)
    (by decide) (by decide) (by decide) (by decide) (by decide) (by decide) (by decide)

/-- C4 counterexample: the claim says any single-byte change makes `Parse`
fail with invalid-encoding or signature-mismatch errors and never succeed;
changing byte 10 of the fixture token from `A` (65) to `B` (66) alters only
base64 padding bits, and `Parse` succeeds, returning the original payload
unchanged. -/
theorem tamper_single_byte_counterexample :
    tokEx.getD 10 0 = 65 ∧ (tokEx.set 10 66).getD 10 0 = 66 ∧
    parse macStub sEx 5 (tokEx.set 10 66) = some (.ok pEx) := by
  refine ⟨by decide, by decide, by decide⟩

end Hmacsigner